import Mathlib

/-!
# Verification of the RFP document analyzer core (`rfp_analyzer.py`)

This file is a shallow embedding, in Lean 4, of the pattern-based extraction
and classification engine of the repository's single source file
`rfp_analyzer.py`, together with proofs of the specification claims about it.

Modelling conventions:

* Python text is modelled as `List Char`; all matching in the source passes
  `re.IGNORECASE`, which we model with an ASCII case-folding function
  `pyLower` (the source's data is ASCII).
* Python's `re` patterns used by the source are translated into a small
  regular-expression syntax `RE` covering exactly the constructs the source
  uses: literals, character classes, `\d`, `\s`, `.`, `\b`, alternation,
  concatenation and counted repetition (with `+`, `?`, `{m,n}`, `{m,}` as
  special cases).  Matching is implemented by a continuation-passing
  backtracking matcher `tryMF` that mirrors Python's leftmost-first,
  greedy-first backtracking order; `findall` mirrors `re.findall`
  (non-overlapping, leftmost, advancing by one after an empty match).
  The matcher carries a fuel argument so that it is structurally recursive
  and hence computable by the kernel; the fuel budget `szN` is chosen so
  that every recursive call strictly decreases it, so the fuel never runs
  out and only bounds recursion depth, never changes the result.
  Unbounded repetition `{m,}` is run with at most `m + |text|` iterations,
  which is equivalent for the source's patterns (whose repeated bodies
  always consume at least one character).
* Python's `set(...)` conversions fix no iteration order; we model them
  with `List.dedup` (a deterministic choice).  No claim depends on the
  order, only on membership and cardinality.
* Python `dict`s preserve insertion order, modelled by association lists.
-/

/-- ASCII lower-casing, as performed by Python's `str.lower` /
`re.IGNORECASE` on the ASCII data that this program manipulates. -/
def pyLower : Char → Char
  | 'A' => 'a' | 'B' => 'b' | 'C' => 'c' | 'D' => 'd' | 'E' => 'e'
  | 'F' => 'f' | 'G' => 'g' | 'H' => 'h' | 'I' => 'i' | 'J' => 'j'
  | 'K' => 'k' | 'L' => 'l' | 'M' => 'm' | 'N' => 'n' | 'O' => 'o'
  | 'P' => 'p' | 'Q' => 'q' | 'R' => 'r' | 'S' => 's' | 'T' => 't'
  | 'U' => 'u' | 'V' => 'v' | 'W' => 'w' | 'X' => 'x' | 'Y' => 'y'
  | 'Z' => 'z'
  | c => c

/-- ASCII upper-casing, as performed by Python's `str.upper`. -/
def pyUpperC : Char → Char
  | 'a' => 'A' | 'b' => 'B' | 'c' => 'C' | 'd' => 'D' | 'e' => 'E'
  | 'f' => 'F' | 'g' => 'G' | 'h' => 'H' | 'i' => 'I' | 'j' => 'J'
  | 'k' => 'K' | 'l' => 'L' | 'm' => 'M' | 'n' => 'N' | 'o' => 'O'
  | 'p' => 'P' | 'q' => 'Q' | 'r' => 'R' | 's' => 'S' | 't' => 'T'
  | 'u' => 'U' | 'v' => 'V' | 'w' => 'W' | 'x' => 'X' | 'y' => 'Y'
  | 'z' => 'Z'
  | c => c

/-- The characters Python's `str.strip()`, `str.split()` and `\s` treat as
whitespace. -/
def isPySpace (c : Char) : Bool :=
  c = ' ' || c = '\t' || c = '\n' || c = '\r' || c = '\x0b' || c = '\x0c'

/-- Case-insensitive character comparison (`re.IGNORECASE`). -/
def charIEq (c d : Char) : Bool := pyLower c = pyLower d

/-- Lower-case a whole text (`str.lower`). -/
def toLowerL (l : List Char) : List Char := l.map pyLower

/-- `str.strip()`: remove leading and trailing whitespace. -/
def pyStrip (l : List Char) : List Char :=
  ((l.dropWhile isPySpace).reverse.dropWhile isPySpace).reverse

/-- Auxiliary for `pySplit`: accumulate the current word (reversed). -/
def pySplitAux : List Char → List Char → List (List Char)
  | [], acc => if acc = [] then [] else [acc.reverse]
  | c :: cs, acc =>
    if isPySpace c then
      if acc = [] then pySplitAux cs [] else acc.reverse :: pySplitAux cs []
    else pySplitAux cs (c :: acc)

/-- `str.split()` with no separator: split on whitespace runs, dropping
empty chunks. -/
def pySplit (l : List Char) : List (List Char) := pySplitAux l []

/-- Python `\w` (ASCII): letters, digits and underscore. -/
def isWordChar (c : Char) : Bool := c.isAlphanum || c = '_'

/-- The pySlice `t[i:j]` of a text. -/
def pySlice (t : List Char) (i j : Nat) : List Char := (t.drop i).take (j - i)

/-- Regular-expression syntax: exactly the constructs appearing in the
patterns of `rfp_analyzer.py` (all compiled with `re.IGNORECASE`). -/
inductive RE : Type where
  | eps : RE
  | lit : Char → RE
  | cls : List Char → RE
  | digit : RE
  | space : RE
  | dot : RE
  | wordB : RE
  | seq : RE → RE → RE
  | alt : RE → RE → RE
  | rep : RE → Nat → Option Nat → RE
deriving DecidableEq, Repr

/-- Decrement an optional repetition bound. -/
def decOpt : Option Nat → Option Nat
  | none => none
  | some 0 => some 0
  | some (h + 1) => some h

/-- Is position `i` of `t` a `\b` word boundary? -/
def atWordB (t : List Char) (i : Nat) : Bool :=
  let prevW := match i with
    | 0 => false
    | j + 1 => ((t.get? j).map isWordChar).getD false
  let curW := ((t.get? i).map isWordChar).getD false
  prevW != curW

/-- Fuel budget for `tryMF`: an upper bound (in terms of the text length
`n`) on the recursion depth of the backtracking matcher; every recursive
call of `tryMF` strictly decreases it. -/
def szN (n : Nat) : RE → Nat
  | .seq a b => szN n a + szN n b + 1
  | .alt a b => szN n a + szN n b + 1
  | .rep a lo (some h) => (szN n a + 1) * (lo + h + 1) + 1
  | .rep a lo none => (szN n a + 1) * (lo + n + 1) + 2
  | _ => 1

/-- The backtracking matcher, mirroring CPython's `re` engine on the
constructs of `RE`: `tryMF fuel r t i k` attempts to match `r` in `t`
starting at position `i`, calling the continuation `k` with the position
after the match, trying possibilities in Python's order (alternatives left
first, repetitions greedy).  `fuel` only bounds recursion depth; with
`fuel = szN t.length r` it never runs out.  An unbounded repetition is run
with at most `lo + |t|` iterations, equivalent for bodies that consume at
least one character (as all of the source's do); a repetition body that
matches empty is not repeated (as in CPython). -/
def tryMF : Nat → RE → List Char → Nat → (Nat → Option Nat) → Option Nat
  | 0, _, _, _, _ => none
  | f + 1, r, t, i, k =>
    match r with
    | .eps => k i
    | .lit c =>
      match t.get? i with
      | some d => if charIEq c d then k (i + 1) else none
      | none => none
    | .cls cs =>
      match t.get? i with
      | some d => if cs.any (fun c => charIEq c d) then k (i + 1) else none
      | none => none
    | .digit =>
      match t.get? i with
      | some d => if d.isDigit then k (i + 1) else none
      | none => none
    | .space =>
      match t.get? i with
      | some d => if isPySpace d then k (i + 1) else none
      | none => none
    | .dot =>
      match t.get? i with
      | some d => if d = '\n' then none else k (i + 1)
      | none => none
    | .wordB => if atWordB t i then k i else none
    | .seq a b => tryMF f a t i (fun j => tryMF f b t j k)
    | .alt a b =>
      match tryMF f a t i k with
      | some y => some y
      | none => tryMF f b t i k
    | .rep a lo hi =>
      match lo, hi with
      | l + 1, _ => tryMF f a t i (fun j => tryMF f (.rep a l (decOpt hi)) t j k)
      | 0, some 0 => k i
      | 0, some (h + 1) =>
        match tryMF f a t i
            (fun j => if j = i then none else tryMF f (.rep a 0 (some h)) t j k) with
        | some y => some y
        | none => k i
      | 0, none => tryMF f (.rep a 0 (some (t.length - i))) t i k

/-- First match of `r` at position `i` (end position), in Python's
backtracking order. -/
def matchAt (r : RE) (t : List Char) (i : Nat) : Option Nat :=
  tryMF (szN t.length r) r t i some

/-- Scan for non-overlapping matches left to right, as `re.findall` does:
continue after each match, advancing by one position after an empty match. -/
def scanA : Nat → RE → List Char → Nat → List (List Char)
  | 0, _, _, _ => []
  | f + 1, r, t, i =>
    if i ≤ t.length then
      match matchAt r t i with
      | some j => pySlice t i j :: scanA f r t (if j ≤ i then i + 1 else j)
      | none => scanA f r t (i + 1)
    else []

/-- `re.findall(pattern, text, re.IGNORECASE)` for a group-free pattern:
the list of matched substrings, leftmost first, non-overlapping. -/
def findall (r : RE) (t : List Char) : List (List Char) :=
  scanA (t.length + 1) r t 0

/-- `re.escape(m)` compiled: the pattern matching exactly the literal `m`
(case-insensitively, since the source always passes `re.IGNORECASE`). -/
def lits (m : List Char) : RE := m.foldr (fun c r => .seq (.lit c) r) .eps

/-- Concatenation of a pattern list. -/
def cat (l : List RE) : RE := l.foldr .seq .eps

/-- Alternation `p1|p2|...` (nonempty list). -/
def alts : List RE → RE
  | [] => .eps
  | [r] => r
  | r :: rest => .alt r (alts rest)

/-- A literal word of a pattern. -/
def litS (s : String) : RE := lits s.toList

/-- `\s+` -/
def wsP : RE := .rep .space 1 none

/-- `X?` -/
def opt (r : RE) : RE := .rep r 0 (some 1)

/-- The context-window pattern the source builds around a matched literal
`m`: `.{0,w}` + `re.escape(m)` + `.{0,w}` (with `w = 100` in
`find_matches` and `w = 50` in `extract_deadlines`). -/
def winRE (w : Nat) (m : List Char) : RE :=
  .seq (.rep .dot 0 (some w)) (.seq (lits m) (.rep .dot 0 (some w)))

/-!
## The pattern catalog of `rfp_analyzer.py`

Each dictionary of patterns in the source becomes an association list of
`(name, RE)` pairs in the source's (insertion-preserving) order; each
pattern string is translated construct by construct.
-/

/-- `RISK_PATTERNS['high']['unlimited_liability']` -/
def unlimitedRE : RE :=
  alts [cat [litS "unlimited", wsP, litS "liability"],
        cat [litS "uncapped", wsP, litS "liability"]]

/-- `RISK_PATTERNS['high']['indemnification']` -/
def indemnRE : RE :=
  alts [litS "indemnif", cat [litS "hold", wsP, litS "harmless"]]

/-- `RISK_PATTERNS['high']['ip_transfer']` -/
def ipTransferRE : RE :=
  alts [cat [litS "work", wsP, litS "for", wsP, litS "hire"],
        cat [litS "assign", opt (.lit 's'), wsP, litS "all", wsP,
             litS "right", opt (.lit 's')],
        cat [litS "transfer", wsP, litS "of", wsP, litS "ownership"]]

/-- `RISK_PATTERNS['high']['liquidated_damages']` -/
def liqDamagesRE : RE :=
  alts [cat [litS "liquidated", wsP, litS "damages"],
        cat [litS "penalty", wsP, litS "clause"]]

/-- `RISK_PATTERNS['high']['termination_for_convenience']` -/
def termConvRE : RE :=
  alts [cat [litS "termination", wsP, litS "for", wsP, litS "convenience"],
        cat [litS "terminate", wsP, litS "without", wsP, litS "cause"]]

/-- `RISK_PATTERNS['high']['payment_terms']` -/
def payTermsRE : RE :=
  alts [cat [litS "net", wsP, .rep .digit 2 (some 3)],
        cat [litS "payment", wsP, litS "term", opt (.lit 's'), wsP,
             .rep .digit 2 none],
        cat [litS "paid", wsP, litS "after", wsP, .rep .digit 2 none]]

/-- `RISK_PATTERNS['high']` -/
def RISK_high : List (String × RE) :=
  [("unlimited_liability", unlimitedRE),
   ("indemnification", indemnRE),
   ("ip_transfer", ipTransferRE),
   ("liquidated_damages", liqDamagesRE),
   ("termination_for_convenience", termConvRE),
   ("payment_terms", payTermsRE)]

/-- `RISK_PATTERNS['medium']` -/
def RISK_medium : List (String × RE) :=
  [("warranty",
      alts [cat [litS "warrant", .cls ['y', 'i']],
            litS "guarantee"]),
   ("insurance",
      alts [cat [litS "insurance", wsP, litS "requirement", opt (.lit 's')],
            cat [litS "liability", wsP, litS "insurance"],
            cat [litS "error", opt (.lit 's'), wsP, litS "and", wsP,
                 litS "omission", opt (.lit 's')]]),
   ("audit_rights",
      alts [cat [litS "audit", wsP, litS "right", opt (.lit 's')],
            cat [litS "right", wsP, litS "to", wsP, litS "audit"],
            cat [litS "inspection", wsP, litS "right", opt (.lit 's')]]),
   ("confidentiality",
      alts [litS "confidential",
            cat [litS "non", opt (.lit '-'), litS "disclosure"],
            cat [litS "proprietary", wsP, litS "information"]]),
   ("dispute_resolution",
      alts [litS "arbitration",
            cat [litS "dispute", wsP, litS "resolution"],
            cat [litS "governing", wsP, litS "law"]])]

/-- `RISK_PATTERNS['low']` -/
def RISK_low : List (String × RE) :=
  [("delivery_terms",
      alts [cat [litS "delivery", wsP, litS "date"],
            litS "milestone",
            litS "deliverable"]),
   ("acceptance_criteria",
      alts [cat [litS "acceptance", wsP, litS "criteria"],
            cat [litS "acceptance", wsP, litS "testing"]]),
   ("change_orders",
      alts [cat [litS "change", wsP, litS "order"],
            litS "modification",
            litS "amendment"])]

/-- `FEDERAL_PATTERNS` -/
def FEDERAL_PATTERNS : List (String × RE) :=
  [("far_clauses",
      alts [cat [litS "FAR", wsP, .rep .digit 1 none, .lit '.',
                 .rep .digit 1 none],
            cat [litS "Federal", wsP, litS "Acquisition", wsP,
                 litS "Regulation"]]),
   ("dfars_clauses",
      alts [cat [litS "DFARS", wsP, .rep .digit 1 none, .lit '.',
                 .rep .digit 1 none],
            cat [litS "Defense", wsP, litS "Federal", wsP,
                 litS "Acquisition"]]),
   ("small_business",
      alts [cat [litS "small", wsP, litS "business"],
            litS "8(a)",
            litS "HUBZone",
            litS "SDVOSB",
            litS "WOSB"]),
   ("security_clearance",
      alts [cat [litS "security", wsP, litS "clearance"],
            litS "classified",
            litS "secret",
            litS "confidential"]),
   ("buy_american",
      alts [cat [litS "Buy", wsP, litS "American"],
            cat [litS "domestic", wsP, litS "end", wsP, litS "product"],
            cat [litS "TAA", wsP, litS "compliant"]])]

/-- `INSTRUCTION_PATTERNS` -/
def INSTRUCTION_PATTERNS : List (String × RE) :=
  [("deadline",
      alts [cat [litS "due", wsP, litS "date"],
            litS "deadline",
            cat [litS "submit", wsP, litS "by"],
            cat [litS "submission", wsP, litS "date"],
            cat [litS "closing", wsP, litS "date"],
            cat [litS "must", wsP, litS "be", wsP, litS "received"]]),
   ("format",
      alts [cat [litS "page", wsP, litS "limit"],
            cat [litS "font", wsP, litS "size"],
            litS "margin",
            litS "spacing",
            cat [litS "format", wsP, litS "requirement"]]),
   ("submission_method",
      alts [cat [litS "submit", wsP, litS "to"],
            cat [litS "email", wsP, litS "to"],
            cat [litS "upload", wsP, litS "to"],
            cat [litS "deliver", wsP, litS "to"],
            cat [litS "submission", wsP, litS "portal"]]),
   ("required_docs",
      alts [cat [litS "required", wsP, litS "document"],
            cat [litS "must", wsP, litS "include"],
            cat [litS "shall", wsP, litS "provide"],
            litS "attachment",
            litS "exhibit"]),
   ("evaluation",
      alts [cat [litS "evaluation", wsP, litS "criteria"],
            litS "scoring",
            litS "weight",
            cat [litS "technical", wsP, litS "approach"],
            cat [litS "past", wsP, litS "performance"]])]

/-- The slash-or-hyphen character class of the numeric date pattern. -/
def dateSep : RE := .cls ['/', '-']

/-- The three `date_patterns` of `extract_deadlines`. -/
def date_patterns : List RE :=
  [cat [.wordB, .rep .digit 1 (some 2), dateSep, .rep .digit 1 (some 2),
        dateSep, .rep .digit 2 (some 4), .wordB],
   cat [.wordB,
        alts [litS "January", litS "February", litS "March", litS "April",
              litS "May", litS "June", litS "July", litS "August",
              litS "September", litS "October", litS "November",
              litS "December"],
        wsP, .rep .digit 1 (some 2), opt (.lit ','), wsP,
        .rep .digit 4 (some 4), .wordB],
   cat [.wordB, .rep .digit 1 (some 2), wsP,
        alts [litS "Jan", litS "Feb", litS "Mar", litS "Apr", litS "May",
              litS "Jun", litS "Jul", litS "Aug", litS "Sep", litS "Oct",
              litS "Nov", litS "Dec"],
        wsP, .rep .digit 2 (some 4), .wordB],
   ]

/-!
## The analyzer core
-/

/-- The first context match `re.findall(r'.{0,w}' + re.escape(m) + r'.{0,w}',
text, re.IGNORECASE)[0]`, if any. -/
def findContext (w : Nat) (m : List Char) (t : List Char) : Option (List Char) :=
  (findall (winRE w m) t).head?

/-- `find_matches(text, patterns)`: for each rule with at least one
occurrence, the contexts of the (at most 5, deduplicated by literal
matched text) retained matches.  Python's `set(found[:5])` iterates in an
unspecified order; `List.dedup` is the deterministic stand-in. -/
def find_matches (t : List Char) (patterns : List (String × RE)) :
    List (String × List (List Char)) :=
  patterns.filterMap fun kp =>
    let found := findall kp.2 t
    if found = [] then none
    else some (kp.1,
      ((found.take 5).dedup).filterMap fun m =>
        (findContext 100 m t).map pyStrip)

/-- The deadline-indicating vocabulary of `extract_deadlines`. -/
def vocabWords : List (List Char) :=
  [String.toList "due", String.toList "deadline", String.toList "submit",
   String.toList "close", String.toList "by"]

/-- `extract_deadlines(text)`: contexts (±50 chars) of date-shaped tokens
that co-occur with deadline vocabulary; deduplicated (`list(set(...))`,
modelled by `List.dedup`) and capped at 10. -/
def extract_deadlines (t : List Char) : List (List Char) :=
  let deadlines := date_patterns.flatMap fun pat =>
    (findall pat t).flatMap fun date =>
      (findall (winRE 50 date) t).filterMap fun context =>
        if vocabWords.any (fun w => decide (w <:+: toLowerL context)) then
          some (pyStrip context)
        else none
  deadlines.dedup.take 10

/-- The `statistics` sub-dictionary of an analysis result. -/
structure Stats where
  total_pages : Nat
  word_count : Nat
  risk_count : Nat
  instruction_count : Nat
deriving DecidableEq, Repr

/-- The result dictionary built by `analyze_document` (`risks` is a
three-key dictionary with fixed keys, so it is flattened into three
fields). -/
structure AnalysisResult where
  instructions : List (String × List (List Char))
  risks_high : List (String × List (List Char))
  risks_medium : List (String × List (List Char))
  risks_low : List (String × List (List Char))
  federal_items : List (String × List (List Char))
  custom_searches : List (String × List (List Char))
  deadlines : List (List Char)
  statistics : Stats
deriving DecidableEq, Repr

/-- Key deduplication performed by the dict comprehension
`{term: re.escape(term) for term in custom_terms}` (first occurrence kept). -/
def dedupFirstAux : List String → List String → List String
  | [], _ => []
  | x :: xs, seen =>
    if x ∈ seen then dedupFirstAux xs seen else x :: dedupFirstAux xs (x :: seen)

/-- Keys of a Python dict built by inserting a list of keys in order. -/
def dedupFirst (l : List String) : List String := dedupFirstAux l []

/-- `analyze_document(text, custom_terms)`. -/
def analyze_document (t : List Char) (custom_terms : List String) :
    AnalysisResult :=
  let instructions := find_matches t INSTRUCTION_PATTERNS
  let rh := find_matches t RISK_high
  let rm := find_matches t RISK_medium
  let rl := find_matches t RISK_low
  { instructions := instructions
    risks_high := rh
    risks_medium := rm
    risks_low := rl
    federal_items := find_matches t FEDERAL_PATTERNS
    custom_searches :=
      if custom_terms = [] then []
      else find_matches t
        ((dedupFirst custom_terms).map fun term => (term, lits term.toList))
    deadlines := extract_deadlines t
    statistics :=
      { total_pages := (t.countP (fun c => c = '\n')) / 50
        word_count := (pySplit t).length
        risk_count := (((rh ++ rm) ++ rl).map (fun kv => kv.2.length)).sum
        instruction_count := (instructions.map (fun kv => kv.2.length)).sum } }

/-!
## The report builder (`create_excel_report`)

The Excel serialization itself (openpyxl) is external; what the core
determines is the sequence of named tables (worksheets), their header
rows, their data rows, and the column widths.  Cells are modelled as
already-rendered strings (`str(cell.value)` of the Python values the code
writes; for the `int` statistics this is their decimal rendering).
-/

/-- `category.replace('_', ' ')` -/
def usToSpace (s : String) : String :=
  String.mk (s.toList.map fun c => if c = '_' then ' ' else c)

/-- `str.title()` (ASCII): upper-case every letter that does not follow a
letter, lower-case the rest. -/
def pyTitleAux : List Char → Bool → List Char
  | [], _ => []
  | c :: cs, prevAlpha =>
    (if prevAlpha then pyLower c else pyUpperC c) :: pyTitleAux cs c.isAlpha

/-- `s.title()` -/
def pyTitle (s : String) : String := String.mk (pyTitleAux s.toList false)

/-- `s.upper()` -/
def pyUpper (s : String) : String := String.mk (s.toList.map pyUpperC)

/-- One worksheet of the report: name, header row, data rows, and the
column widths set by the formatting loop. -/
structure STable where
  name : String
  header : List String
  rows : List (List String)
  widths : List Nat
deriving DecidableEq, Repr

/-- Column widths: for each column, `min(max_length + 2, 50)` where
`max_length` is the longest rendered cell (header included, since
`worksheet.columns` iterates over the header row too). -/
def colWidths (header : List String) (rows : List (List String)) : List Nat :=
  (List.range header.length).map fun ci =>
    let cells := ((header.get? ci).getD "") :: rows.map fun row => (row.get? ci).getD ""
    min ((cells.map String.length).foldl max 0 + 2) 50

/-- Build one worksheet. -/
def mkTable (name : String) (header : List String) (rows : List (List String)) :
    STable :=
  { name := name, header := header, rows := rows, widths := colWidths header rows }

/-- `create_excel_report(results)`: the ordered sequence of worksheets. -/
def create_excel_report (r : AnalysisResult) : List STable :=
  let summary := mkTable "Summary" ["Metric", "Value"]
    [["Total Word Count", toString r.statistics.word_count],
     ["Estimated Pages", toString r.statistics.total_pages],
     ["Total Risks Identified", toString r.statistics.risk_count],
     ["Total Instructions Found", toString r.statistics.instruction_count],
     ["Deadlines Found", toString r.deadlines.length]]
  let instruction_rows := r.instructions.flatMap fun kv =>
    kv.2.map fun item => [pyTitle (usToSpace kv.1), String.mk item]
  let risk_rows :=
    (r.risks_high.flatMap fun kv =>
      kv.2.map fun item =>
        [pyUpper "high", pyTitle (usToSpace kv.1), String.mk item]) ++
    (r.risks_medium.flatMap fun kv =>
      kv.2.map fun item =>
        [pyUpper "medium", pyTitle (usToSpace kv.1), String.mk item]) ++
    (r.risks_low.flatMap fun kv =>
      kv.2.map fun item =>
        [pyUpper "low", pyTitle (usToSpace kv.1), String.mk item])
  let federal_rows := r.federal_items.flatMap fun kv =>
    kv.2.map fun item => [pyTitle (usToSpace kv.1), String.mk item]
  let custom_rows := r.custom_searches.flatMap fun kv =>
    kv.2.map fun item => [kv.1, String.mk item]
  [summary] ++
  (if instruction_rows = [] then []
   else [mkTable "Instructions" ["Category", "Instruction"] instruction_rows]) ++
  (if risk_rows = [] then []
   else [mkTable "Risks" ["Risk Level", "Risk Type", "Context"] risk_rows]) ++
  (if r.deadlines = [] then []
   else [mkTable "Deadlines" ["Deadline Information"]
          (r.deadlines.map fun d => [String.mk d])]) ++
  (if r.federal_items = [] then []
   else if federal_rows = [] then []
   else [mkTable "Federal Requirements" ["Category", "Reference"] federal_rows]) ++
  (if r.custom_searches = [] then []
   else if custom_rows = [] then []
   else [mkTable "Custom Searches" ["Search Term", "Context"] custom_rows])

/-!
## Semantics of the matcher

`Accepts r s` says the span `s` is one the pattern `r` can match (the
context condition of `\b` is dropped, making this an over-approximation
of the spans the matcher emits — all that the soundness arguments need).
-/

/-- Spans accepted by a pattern. -/
inductive Accepts : RE → List Char → Prop where
  | eps : Accepts .eps []
  | lit {c d : Char} : charIEq c d = true → Accepts (.lit c) [d]
  | cls {cs : List Char} {d : Char} :
      cs.any (fun c => charIEq c d) = true → Accepts (.cls cs) [d]
  | digit {d : Char} : d.isDigit = true → Accepts .digit [d]
  | space {d : Char} : isPySpace d = true → Accepts .space [d]
  | dot {d : Char} : d ≠ '\n' → Accepts .dot [d]
  | wordB : Accepts .wordB []
  | seq {a b : RE} {s1 s2 : List Char} :
      Accepts a s1 → Accepts b s2 → Accepts (.seq a b) (s1 ++ s2)
  | altL {a b : RE} {s : List Char} : Accepts a s → Accepts (.alt a b) s
  | altR {a b : RE} {s : List Char} : Accepts b s → Accepts (.alt a b) s
  | repNil {a : RE} {hi : Option Nat} : Accepts (.rep a 0 hi) []
  | repCons {a : RE} {lo : Nat} {hi : Option Nat} {s1 s2 : List Char} :
      ¬(lo = 0 ∧ hi = some 0) → Accepts a s1 →
      Accepts (.rep a (lo - 1) (decOpt hi)) s2 →
      Accepts (.rep a lo hi) (s1 ++ s2)

theorem pySlice_self (t : List Char) (i : Nat) : pySlice t i i = [] := by
  simp [pySlice]

theorem pySlice_length {t : List Char} {j : Nat} (i : Nat) (hj : j ≤ t.length) :
    (pySlice t i j).length = j - i := by
  simp only [pySlice, List.length_take, List.length_drop]
  omega

theorem pySlice_append {t : List Char} {i j l : Nat} (hij : i ≤ j) (hjl : j ≤ l) :
    pySlice t i l = pySlice t i j ++ pySlice t j l := by
  simp only [pySlice]
  rw [show l - i = (j - i) + (l - j) by omega, List.take_add, List.drop_drop,
    show i + (j - i) = j by omega]

theorem mem_pySlice {t : List Char} {i j : Nat} {c : Char}
    (h : c ∈ pySlice t i j) : c ∈ t :=
  List.mem_of_mem_drop (List.mem_of_mem_take h)

theorem pySlice_cons {t : List Char} {i j : Nat} {d : Char}
    (hd : t.get? i = some d) (hij : i < j) :
    pySlice t i j = d :: pySlice t (i + 1) j := by
  have hlen : i < t.length := by
    by_contra hc
    rw [List.get?_eq_none.2 (by omega)] at hd
    exact Option.noConfusion hd
  have hdrop : t.drop i = d :: t.drop (i + 1) := by
    rw [List.drop_eq_getElem_cons hlen]
    have : t[i] = d := by
      have hh := List.get?_eq_getElem? t i
      rw [hh, List.getElem?_eq_getElem hlen] at hd
      exact Option.some.inj hd
    rw [this]
  simp only [pySlice, hdrop]
  rw [show j - i = (j - (i + 1)) + 1 by omega]
  rfl

theorem lt_length_of_get?_eq_some {t : List Char} {i : Nat} {d : Char}
    (h : t.get? i = some d) : i < t.length := by
  by_contra hc
  rw [List.get?_eq_none.2 (by omega)] at h
  exact Option.noConfusion h

/-- An optional repetition bound can be dropped. -/
theorem acceptsRepWeaken : ∀ {r : RE} {s : List Char}, Accepts r s →
    ∀ (a : RE) (h : Nat), r = RE.rep a 0 (some h) → Accepts (RE.rep a 0 none) s := by
  intro r s hacc
  induction hacc with
  | eps => intro a h he; exact absurd he (by simp)
  | lit _ => intro a h he; exact absurd he (by simp)
  | cls _ => intro a h he; exact absurd he (by simp)
  | digit _ => intro a h he; exact absurd he (by simp)
  | space _ => intro a h he; exact absurd he (by simp)
  | dot _ => intro a h he; exact absurd he (by simp)
  | wordB => intro a h he; exact absurd he (by simp)
  | seq _ _ _ _ => intro a h he; exact absurd he (by simp)
  | altL _ _ => intro a h he; exact absurd he (by simp)
  | altR _ _ => intro a h he; exact absurd he (by simp)
  | repNil => intro a h he; injection he with h1 h2 h3; subst h1; exact Accepts.repNil
  | @repCons a0 lo hi s1 s2 cond h1 h2 ih1 ih2 =>
    intro a h he
    injection he with he1 he2 he3
    subst he1; subst he2; subst he3
    have hne : h ≠ 0 := fun hh => cond ⟨rfl, by rw [hh]⟩
    obtain ⟨h', rfl⟩ := Nat.exists_eq_succ_of_ne_zero hne
    have h2' := ih2 a0 h' (by simp [decOpt])
    refine Accepts.repCons (by simp) h1 ?_
    simpa [decOpt] using h2'

/-- Soundness of the backtracking matcher: a successful run identifies an
end position `j` such that the span `t[i:j]` is accepted by the pattern
and the continuation succeeded at `j`. -/
theorem tryMF_sound :
    ∀ (fuel : Nat) (r : RE) (t : List Char) (i : Nat) (k : Nat → Option Nat)
      (y : Nat), i ≤ t.length → tryMF fuel r t i k = some y →
      ∃ j, i ≤ j ∧ j ≤ t.length ∧ Accepts r (pySlice t i j) ∧ k j = some y := by
  intro fuel
  induction fuel with
  | zero => intro r t i k y _ h; exact absurd h (by simp [tryMF])
  | succ f ih =>
    intro r t i k y hi h
    cases r with
    | eps =>
      refine ⟨i, le_refl i, hi, ?_, h⟩
      rw [pySlice_self]; exact Accepts.eps
    | lit c =>
      simp only [tryMF] at h
      split at h
      next d heq =>
        split at h
        next hc =>
          have hlen := lt_length_of_get?_eq_some heq
          refine ⟨i + 1, by omega, by omega, ?_, h⟩
          rw [pySlice_cons heq (by omega), pySlice_self]
          exact Accepts.lit hc
        next hc => exact absurd h (by simp)
      next heq => exact absurd h (by simp)
    | cls cs =>
      simp only [tryMF] at h
      split at h
      next d heq =>
        split at h
        next hc =>
          have hlen := lt_length_of_get?_eq_some heq
          refine ⟨i + 1, by omega, by omega, ?_, h⟩
          rw [pySlice_cons heq (by omega), pySlice_self]
          exact Accepts.cls hc
        next hc => exact absurd h (by simp)
      next heq => exact absurd h (by simp)
    | digit =>
      simp only [tryMF] at h
      split at h
      next d heq =>
        split at h
        next hc =>
          have hlen := lt_length_of_get?_eq_some heq
          refine ⟨i + 1, by omega, by omega, ?_, h⟩
          rw [pySlice_cons heq (by omega), pySlice_self]
          exact Accepts.digit hc
        next hc => exact absurd h (by simp)
      next heq => exact absurd h (by simp)
    | space =>
      simp only [tryMF] at h
      split at h
      next d heq =>
        split at h
        next hc =>
          have hlen := lt_length_of_get?_eq_some heq
          refine ⟨i + 1, by omega, by omega, ?_, h⟩
          rw [pySlice_cons heq (by omega), pySlice_self]
          exact Accepts.space hc
        next hc => exact absurd h (by simp)
      next heq => exact absurd h (by simp)
    | dot =>
      simp only [tryMF] at h
      split at h
      next d heq =>
        split at h
        next hc => exact absurd h (by simp)
        next hc =>
          have hlen := lt_length_of_get?_eq_some heq
          refine ⟨i + 1, by omega, by omega, ?_, h⟩
          rw [pySlice_cons heq (by omega), pySlice_self]
          exact Accepts.dot hc
      next heq => exact absurd h (by simp)
    | wordB =>
      simp only [tryMF] at h
      split at h
      next hb =>
        refine ⟨i, le_refl i, hi, ?_, h⟩
        rw [pySlice_self]; exact Accepts.wordB
      next hb => exact absurd h (by simp)
    | seq a b =>
      simp only [tryMF] at h
      obtain ⟨j1, hij1, hj1len, hacc1, hk1⟩ := ih a t i _ y hi h
      obtain ⟨j2, hj12, hj2len, hacc2, hk2⟩ := ih b t j1 k y hj1len hk1
      refine ⟨j2, le_trans hij1 hj12, hj2len, ?_, hk2⟩
      rw [pySlice_append hij1 hj12]
      exact Accepts.seq hacc1 hacc2
    | alt a b =>
      simp only [tryMF] at h
      split at h
      next y' ha =>
        have hy : y' = y := Option.some.inj h
        subst hy
        obtain ⟨j, hij, hjlen, hacc, hk⟩ := ih a t i k y' hi ha
        exact ⟨j, hij, hjlen, Accepts.altL hacc, hk⟩
      next ha =>
        obtain ⟨j, hij, hjlen, hacc, hk⟩ := ih b t i k y hi h
        exact ⟨j, hij, hjlen, Accepts.altR hacc, hk⟩
    | rep a lo hi' =>
      cases lo with
      | succ l =>
        simp only [tryMF] at h
        obtain ⟨j1, hij1, hj1len, hacc1, hk1⟩ := ih a t i _ y hi h
        obtain ⟨j2, hj12, hj2len, hacc2, hk2⟩ :=
          ih (RE.rep a l (decOpt hi')) t j1 k y hj1len hk1
        refine ⟨j2, le_trans hij1 hj12, hj2len, ?_, hk2⟩
        rw [pySlice_append hij1 hj12]
        refine Accepts.repCons (by simp) hacc1 ?_
        simpa using hacc2
      | zero =>
        cases hi' with
        | none =>
          simp only [tryMF] at h
          obtain ⟨j, hij, hjlen, hacc, hk⟩ :=
            ih (RE.rep a 0 (some (t.length - i))) t i k y hi h
          exact ⟨j, hij, hjlen, acceptsRepWeaken hacc a _ rfl, hk⟩
        | some hh =>
          cases hh with
          | zero =>
            simp only [tryMF] at h
            refine ⟨i, le_refl i, hi, ?_, h⟩
            rw [pySlice_self]; exact Accepts.repNil
          | succ hh' =>
            simp only [tryMF] at h
            split at h
            next y' hin =>
              have hy : y' = y := Option.some.inj h
              subst hy
              obtain ⟨j1, hij1, hj1len, hacc1, hk1⟩ := ih a t i _ y' hi hin
              by_cases hji : j1 = i
              · rw [if_pos hji] at hk1; exact absurd hk1 (by simp)
              · rw [if_neg hji] at hk1
                obtain ⟨j2, hj12, hj2len, hacc2, hk2⟩ :=
                  ih (RE.rep a 0 (some hh')) t j1 k y' hj1len hk1
                refine ⟨j2, le_trans hij1 hj12, hj2len, ?_, hk2⟩
                rw [pySlice_append hij1 hj12]
                refine Accepts.repCons (by simp) hacc1 ?_
                simpa [decOpt] using hacc2
            next hin =>
              refine ⟨i, le_refl i, hi, ?_, h⟩
              rw [pySlice_self]; exact Accepts.repNil

theorem matchAt_sound {r : RE} {t : List Char} {i j : Nat} (hi : i ≤ t.length)
    (h : matchAt r t i = some j) :
    i ≤ j ∧ j ≤ t.length ∧ Accepts r (pySlice t i j) := by
  obtain ⟨j', h1, h2, h3, h4⟩ := tryMF_sound _ r t i some j hi h
  have hjj : j' = j := Option.some.inj h4
  subst hjj; exact ⟨h1, h2, h3⟩

theorem scanA_mem_sound :
    ∀ (fuel : Nat) (r : RE) (t : List Char) (i : Nat) (x : List Char),
      x ∈ scanA fuel r t i →
      ∃ p j, p ≤ j ∧ j ≤ t.length ∧ x = pySlice t p j ∧ Accepts r x := by
  intro fuel
  induction fuel with
  | zero => intro r t i x h; simp [scanA] at h
  | succ f ih =>
    intro r t i x h
    simp only [scanA] at h
    split at h
    next hile =>
      split at h
      next j hm =>
        rcases List.mem_cons.1 h with hx | hx
        · obtain ⟨h1, h2, h3⟩ := matchAt_sound hile hm
          exact ⟨i, j, h1, h2, hx, hx ▸ h3⟩
        · exact ih r t _ x hx
      next hm => exact ih r t _ x h
    next => simp at h

/-- Every string returned by `findall` is a substring (a span) of the text
accepted by the pattern. -/
theorem findall_mem_sound {r : RE} {t x : List Char} (h : x ∈ findall r t) :
    ∃ p j, p ≤ j ∧ j ≤ t.length ∧ x = pySlice t p j ∧ Accepts r x :=
  scanA_mem_sound _ r t 0 x h

theorem scanA_nil_matchAt :
    ∀ (fuel : Nat) (r : RE) (t : List Char) (i : Nat),
      scanA fuel r t i = [] → ∀ p, i ≤ p → p ≤ t.length → p < i + fuel →
      matchAt r t p = none := by
  intro fuel
  induction fuel with
  | zero => intro r t i _ p _ _ h3; omega
  | succ f ih =>
    intro r t i h p h1 h2 h3
    simp only [scanA] at h
    split at h
    next hile =>
      split at h
      next j hm => exact absurd h (by simp)
      next hm =>
        by_cases hpi : p = i
        · subst hpi; exact hm
        · exact ih r t (i + 1) h p (by omega) h2 (by omega)
    next hile => omega

/-- If `findall` finds nothing, no position matches. -/
theorem findall_nil {r : RE} {t : List Char} (h : findall r t = []) :
    ∀ p, p ≤ t.length → matchAt r t p = none := fun p hp =>
  scanA_nil_matchAt _ r t 0 h p (Nat.zero_le p) hp (by omega)

theorem lits_nil : lits [] = RE.eps := rfl

theorem lits_cons (c : Char) (m : List Char) :
    lits (c :: m) = RE.seq (RE.lit c) (lits m) := rfl

theorem tryMF_seq (f : Nat) (a b : RE) (t : List Char) (i : Nat)
    (k : Nat → Option Nat) :
    tryMF (f + 1) (RE.seq a b) t i k = tryMF f a t i (fun j => tryMF f b t j k) :=
  rfl

/-- If a bounded optional repetition fails with some continuation, the
continuation already failed at the start position (the greedy loop always
falls back to zero iterations). -/
theorem tryMF_rep0_fallback {f : Nat} {a : RE} {h : Nat} {t : List Char}
    {i : Nat} {k : Nat → Option Nat} (hf : 1 ≤ f)
    (hnone : tryMF f (RE.rep a 0 (some h)) t i k = none) : k i = none := by
  obtain ⟨f', rfl⟩ := Nat.exists_eq_succ_of_ne_zero (by omega : f ≠ 0)
  cases h with
  | zero => simpa [tryMF] using hnone
  | succ h' =>
    simp only [tryMF] at hnone
    split at hnone
    next => exact absurd hnone (by simp)
    next => exact hnone

/-- If the literal `m` occurs (case-insensitively) at position `i` and the
literal pattern for `m` fails there with some continuation, the
continuation already failed right after the occurrence. -/
theorem tryMF_lits_complete :
    ∀ (m : List Char) (f : Nat) (t : List Char) (i : Nat) (k : Nat → Option Nat),
      m.length + 1 ≤ f → i + m.length ≤ t.length →
      List.Forall₂ (fun c d => charIEq c d = true) m (pySlice t i (i + m.length)) →
      tryMF f (lits m) t i k = none → k (i + m.length) = none := by
  intro m
  induction m with
  | nil =>
    intro f t i k hf _ _ h
    obtain ⟨f', rfl⟩ := Nat.exists_eq_succ_of_ne_zero (by omega : f ≠ 0)
    simpa [tryMF, lits_nil] using h
  | cons c m' ihm =>
    intro f t i k hf hlen hfor h
    obtain ⟨f', rfl⟩ := Nat.exists_eq_succ_of_ne_zero (by omega : f ≠ 0)
    obtain ⟨f'', rfl⟩ := Nat.exists_eq_succ_of_ne_zero
      (by simp at hf; omega : f' ≠ 0)
    have hi : i < t.length := by simp at hlen; omega
    have hget : t.get? i = some (t.get ⟨i, hi⟩) := List.get?_eq_get hi
    rw [show i + (c :: m').length = i + m'.length + 1 by simp; omega] at hfor
    rw [pySlice_cons hget (by omega)] at hfor
    cases hfor with
    | cons hcd hrest =>
      rw [lits_cons, tryMF_seq] at h
      simp only [tryMF, hget] at h
      rw [if_pos hcd] at h
      have hres := ihm (f'' + 1) t (i + 1) k (by simp at hf ⊢; omega)
        (by simp at hlen ⊢; omega)
        (by rw [show i + 1 + m'.length = i + m'.length + 1 by omega]; exact hrest)
        h
      rw [show i + (c :: m').length = i + 1 + m'.length by simp; omega]
      exact hres

theorem szN_lits (n : Nat) (m : List Char) : szN n (lits m) = 2 * m.length + 1 := by
  induction m with
  | nil => simp [lits_nil, szN]
  | cons c m' ih => rw [lits_cons]; simp [szN, ih]; omega

theorem szN_winRE (n w : Nat) (m : List Char) :
    szN n (winRE w m) = 4 * w + 2 * m.length + 9 := by
  simp [winRE, szN, szN_lits]; omega

theorem charIEq_refl (c : Char) : charIEq c c = true := by simp [charIEq]

/-- If a literal occurs (case-insensitively) in the text, the
context-window search around it finds a match. -/
theorem findContext_complete {m t : List Char} {p : Nat} (w : Nat)
    (hplen : p + m.length ≤ t.length)
    (hocc : List.Forall₂ (fun c d => charIEq c d = true) m
      (pySlice t p (p + m.length))) :
    (findContext w m t).isSome := by
  rw [findContext]
  cases hfa : findall (winRE w m) t with
  | cons x xs => simp
  | nil =>
    exfalso
    have hm := findall_nil hfa p (by omega)
    rw [matchAt, szN_winRE] at hm
    unfold winRE at hm
    rw [show 4 * w + 2 * m.length + 9 = (4 * w + 2 * m.length + 8) + 1 by omega,
      tryMF_seq] at hm
    have h1 := tryMF_rep0_fallback (by omega) hm
    simp only [] at h1
    rw [show 4 * w + 2 * m.length + 8 = (4 * w + 2 * m.length + 7) + 1 by omega,
      tryMF_seq] at h1
    have h2 := tryMF_lits_complete m (4 * w + 2 * m.length + 7) t p _
      (by omega) hplen hocc h1
    simp only [] at h2
    have h3 := tryMF_rep0_fallback (by omega) h2
    exact absurd h3 (by simp)

/-- A string returned by `findall` always yields a context window. -/
theorem findContext_of_mem_findall {r : RE} {t m : List Char}
    (hm : m ∈ findall r t) (w : Nat) : (findContext w m t).isSome := by
  obtain ⟨p, j, hpj, hjlen, heq, hacc⟩ := findall_mem_sound hm
  have hmlen : m.length = j - p := by rw [heq]; exact pySlice_length p hjlen
  have hp : p + m.length = j := by omega
  refine findContext_complete (t := t) (p := p) w (by omega) ?_
  rw [hp, ← heq]
  exact List.forall₂_same.2 (fun x _ => charIEq_refl x)

/-- If a literal occurs (case-insensitively) in the text, `findall` on its
escaped pattern finds at least one occurrence. -/
theorem findall_lits_complete {n t : List Char} {p : Nat}
    (hplen : p + n.length ≤ t.length)
    (hocc : List.Forall₂ (fun c d => charIEq c d = true) n
      (pySlice t p (p + n.length))) :
    findall (lits n) t ≠ [] := by
  intro hfa
  have hm := findall_nil hfa p (by omega)
  rw [matchAt, szN_lits] at hm
  have h1 := tryMF_lits_complete n (2 * n.length + 1) t p some
    (by omega) hplen hocc hm
  exact absurd h1 (by simp)

theorem acceptsLits : ∀ (m s : List Char), Accepts (lits m) s →
    List.Forall₂ (fun c d => charIEq c d = true) m s := by
  intro m
  induction m with
  | nil => intro s h; rw [lits_nil] at h; cases h; exact List.Forall₂.nil
  | cons c m' ih =>
    intro s h
    rw [lits_cons] at h
    cases h with
    | seq h1 h2 =>
      cases h1 with
      | lit hcd => exact List.Forall₂.cons hcd (ih _ h2)

theorem acceptsRepDot : ∀ {r : RE} {s : List Char}, Accepts r s →
    ∀ (h : Nat), r = RE.rep RE.dot 0 (some h) →
    s.length ≤ h ∧ ('\n' ∉ s) := by
  intro r s hacc
  induction hacc with
  | eps => intro h he; exact absurd he (by simp)
  | lit _ => intro h he; exact absurd he (by simp)
  | cls _ => intro h he; exact absurd he (by simp)
  | digit _ => intro h he; exact absurd he (by simp)
  | space _ => intro h he; exact absurd he (by simp)
  | dot _ => intro h he; exact absurd he (by simp)
  | wordB => intro h he; exact absurd he (by simp)
  | seq _ _ _ _ => intro h he; exact absurd he (by simp)
  | altL _ _ => intro h he; exact absurd he (by simp)
  | altR _ _ => intro h he; exact absurd he (by simp)
  | repNil => intro h he; simp
  | @repCons a0 lo hi s1 s2 cond h1 h2 ih1 ih2 =>
    intro h he
    injection he with he1 he2 he3
    subst he1; subst he2; subst he3
    have hne : h ≠ 0 := fun hh => cond ⟨rfl, by rw [hh]⟩
    obtain ⟨h', rfl⟩ := Nat.exists_eq_succ_of_ne_zero hne
    have hrec := ih2 h' (by simp [decOpt])
    cases h1 with
    | dot hd =>
      constructor
      · simp only [List.length_append, List.length_singleton]; omega
      · intro hmem
        rcases List.mem_append.1 hmem with hmem | hmem
        · rw [List.mem_singleton] at hmem; exact hd hmem.symm
        · exact hrec.2 hmem

/-- Decomposition of a span accepted by the context-window pattern:
a flank of at most `w` non-newline characters, a case-insensitive copy of
the literal, and another flank of at most `w` non-newline characters. -/
theorem acceptsWin {w : Nat} {m s : List Char} (h : Accepts (winRE w m) s) :
    ∃ s1 s2 s3, s = s1 ++ s2 ++ s3 ∧
      s1.length ≤ w ∧ ('\n' ∉ s1) ∧
      List.Forall₂ (fun c d => charIEq c d = true) m s2 ∧
      s3.length ≤ w ∧ ('\n' ∉ s3) := by
  unfold winRE at h
  cases h with
  | seq h1 h23 =>
    cases h23 with
    | seq h2 h3 =>
      obtain ⟨hl1, hn1⟩ := acceptsRepDot h1 w rfl
      obtain ⟨hl3, hn3⟩ := acceptsRepDot h3 w rfl
      exact ⟨_, _, _, (List.append_assoc _ _ _).symm, hl1, hn1,
        acceptsLits _ _ h2, hl3, hn3⟩

/-- Syntactic check: every span accepted by the pattern contains at least
one non-whitespace character. -/
def reqNonWS : RE → Bool
  | .eps => false
  | .lit c => !(isPySpace (pyLower c))
  | .cls cs => cs.all fun c => !(isPySpace (pyLower c))
  | .digit => true
  | .space => false
  | .dot => false
  | .wordB => false
  | .seq a b => reqNonWS a || reqNonWS b
  | .alt a b => reqNonWS a && reqNonWS b
  | .rep a lo _ => decide (1 ≤ lo) && reqNonWS a

theorem isPySpace_pyLower (c : Char) : isPySpace (pyLower c) = isPySpace c := by
  unfold pyLower
  split <;> rfl

theorem nonWS_of_charIEq {c d : Char} (hcd : charIEq c d = true)
    (hc : isPySpace (pyLower c) = false) : isPySpace d = false := by
  simp only [charIEq, decide_eq_true_eq] at hcd
  rw [hcd, isPySpace_pyLower] at hc
  exact hc

theorem not_space_of_digit {d : Char} (h : d.isDigit = true) :
    isPySpace d = false := by
  cases hsp : isPySpace d
  · rfl
  · exfalso
    simp only [isPySpace, Bool.or_eq_true, decide_eq_true_eq] at hsp
    rcases hsp with ((((rfl | rfl) | rfl) | rfl) | rfl) | rfl <;>
      exact absurd h (by decide)

theorem reqNonWS_spec : ∀ {r : RE} {s : List Char}, Accepts r s →
    reqNonWS r = true → ∃ c ∈ s, isPySpace c = false := by
  intro r s hacc
  induction hacc with
  | eps => intro h; exact absurd h (by simp [reqNonWS])
  | lit hcd =>
    intro h
    simp only [reqNonWS, Bool.not_eq_eq_eq_not, Bool.not_true] at h
    exact ⟨_, List.mem_singleton_self _, nonWS_of_charIEq hcd h⟩
  | cls hcd =>
    intro h
    simp only [reqNonWS, List.all_eq_true, Bool.not_eq_eq_eq_not,
      Bool.not_true] at h
    rw [List.any_eq_true] at hcd
    obtain ⟨c, hcmem, hceq⟩ := hcd
    exact ⟨_, List.mem_singleton_self _, nonWS_of_charIEq hceq (h c hcmem)⟩
  | digit hd => intro _; exact ⟨_, List.mem_singleton_self _, not_space_of_digit hd⟩
  | space _ => intro h; exact absurd h (by simp [reqNonWS])
  | dot _ => intro h; exact absurd h (by simp [reqNonWS])
  | wordB => intro h; exact absurd h (by simp [reqNonWS])
  | @seq a b s1 s2 h1 h2 ih1 ih2 =>
    intro h
    have h' : reqNonWS a = true ∨ reqNonWS b = true := by
      simpa [reqNonWS, Bool.or_eq_true] using h
    rcases h' with hr | hr
    · obtain ⟨c, hc, hcs⟩ := ih1 hr
      exact ⟨c, List.mem_append_left _ hc, hcs⟩
    · obtain ⟨c, hc, hcs⟩ := ih2 hr
      exact ⟨c, List.mem_append_right _ hc, hcs⟩
  | @altL a b s h1 ih =>
    intro h
    have h' : reqNonWS a = true ∧ reqNonWS b = true := by
      simpa [reqNonWS, Bool.and_eq_true] using h
    exact ih h'.1
  | @altR a b s h1 ih =>
    intro h
    have h' : reqNonWS a = true ∧ reqNonWS b = true := by
      simpa [reqNonWS, Bool.and_eq_true] using h
    exact ih h'.2
  | repNil => intro h; exact absurd h (by simp [reqNonWS])
  | @repCons a lo hi s1 s2 cond h1 h2 ih1 ih2 =>
    intro h
    have h' : 1 ≤ lo ∧ reqNonWS a = true := by
      simpa [reqNonWS, Bool.and_eq_true] using h
    obtain ⟨c, hc, hcs⟩ := ih1 h'.2
    exact ⟨c, List.mem_append_left _ hc, hcs⟩

/-- On a whitespace-only text, a pattern passing the `reqNonWS` check finds
nothing. -/
theorem findall_nil_of_ws {r : RE} {t : List Char}
    (hws : ∀ c ∈ t, isPySpace c = true) (hreq : reqNonWS r = true) :
    findall r t = [] := by
  cases hfa : findall r t with
  | nil => rfl
  | cons x xs =>
    exfalso
    have hx : x ∈ findall r t := by rw [hfa]; exact List.mem_cons_self _ _
    obtain ⟨p, j, _, _, heq, hacc⟩ := findall_mem_sound hx
    obtain ⟨c, hc, hcws⟩ := reqNonWS_spec hacc hreq
    have hct : c ∈ t := mem_pySlice (heq ▸ hc)
    rw [hws c hct] at hcws
    exact Bool.noConfusion hcws

theorem pyStrip_length_le (l : List Char) : (pyStrip l).length ≤ l.length := by
  unfold pyStrip
  calc ((l.dropWhile isPySpace).reverse.dropWhile isPySpace).reverse.length
      = ((l.dropWhile isPySpace).reverse.dropWhile isPySpace).length := by
        rw [List.length_reverse]
    _ ≤ (l.dropWhile isPySpace).reverse.length :=
        (List.dropWhile_sublist _).length_le
    _ = (l.dropWhile isPySpace).length := by rw [List.length_reverse]
    _ ≤ l.length := (List.dropWhile_sublist _).length_le

theorem infix_dropWhile {w l : List Char} {p : Char → Bool} (hw : w ≠ [])
    (hhead : p (w.head hw) = false) (h : w <:+: l) : w <:+: l.dropWhile p := by
  induction l with
  | nil => rw [List.infix_nil] at h; exact absurd h hw
  | cons c l' ih =>
    by_cases hc : p c
    · rw [List.dropWhile_cons_of_pos hc]
      rcases List.infix_cons_iff.1 h with hpre | hinf
      · exfalso
        have hhc : w.head hw = c := by
          cases w with
          | nil => exact absurd rfl hw
          | cons a w' =>
            have := List.cons_prefix_cons.1 hpre
            simpa using this.1
        rw [hhc] at hhead
        rw [hc] at hhead
        exact Bool.noConfusion hhead
      · exact ih hinf
    · rw [List.dropWhile_cons_of_neg hc]
      exact h

theorem infix_pyStrip {w l : List Char} (hw : w ≠ [])
    (hh : isPySpace (w.head hw) = false)
    (hl : isPySpace (w.getLast hw) = false)
    (h : w <:+: l) : w <:+: pyStrip l := by
  unfold pyStrip
  have h1 : w <:+: l.dropWhile isPySpace := infix_dropWhile hw hh h
  have h2 : w.reverse <:+: (l.dropWhile isPySpace).reverse :=
    List.reverse_infix.2 h1
  have hwr : w.reverse ≠ [] := by simpa using hw
  have hhr : isPySpace (w.reverse.head hwr) = false := by
    rw [List.head_reverse]
    exact hl
  have h3 : w.reverse <:+: (l.dropWhile isPySpace).reverse.dropWhile isPySpace :=
    infix_dropWhile hwr hhr h2
  have h4 : w.reverse <:+:
      (((l.dropWhile isPySpace).reverse.dropWhile isPySpace).reverse).reverse := by
    simpa using h3
  exact List.reverse_infix.1 h4

theorem toLowerL_pyStrip (l : List Char) :
    toLowerL (pyStrip l) = pyStrip (toLowerL l) := by
  unfold pyStrip toLowerL
  have hfun : (isPySpace ∘ pyLower) = isPySpace := by
    funext c; simp [Function.comp, isPySpace_pyLower]
  rw [List.dropWhile_map, hfun, ← List.map_reverse, List.dropWhile_map, hfun,
    ← List.map_reverse]

theorem pySplitAux_ws : ∀ (t : List Char), (∀ c ∈ t, isPySpace c = true) →
    pySplitAux t [] = [] := by
  intro t
  induction t with
  | nil => intro _; rfl
  | cons c cs ih =>
    intro h
    simp only [pySplitAux]
    rw [if_pos (h c (List.mem_cons_self _ _))]
    simp only [if_pos]
    exact ih fun d hd => h d (List.mem_cons_of_mem _ hd)

theorem pySplit_ws {t : List Char} (h : ∀ c ∈ t, isPySpace c = true) :
    pySplit t = [] := pySplitAux_ws t h

theorem length_filterMap_of_isSome {α β : Type} {f : α → Option β} :
    ∀ {l : List α}, (∀ x ∈ l, (f x).isSome) →
    (l.filterMap f).length = l.length := by
  intro l
  induction l with
  | nil => intro _; rfl
  | cons x xs ih =>
    intro h
    have hx := h x (List.mem_cons_self _ _)
    obtain ⟨y, hy⟩ := Option.isSome_iff_exists.1 hx
    rw [List.filterMap_cons, hy]
    simp only [List.length_cons]
    rw [ih fun z hz => h z (List.mem_cons_of_mem _ hz)]

/-- Characterization of membership in the `find_matches` mapping. -/
theorem find_matches_mem {t : List Char} {ps : List (String × RE)}
    {key : String} {ctxs : List (List Char)}
    (h : (key, ctxs) ∈ find_matches t ps) :
    ∃ p, (key, p) ∈ ps ∧ findall p t ≠ [] ∧
      ctxs = ((findall p t).take 5).dedup.filterMap
        (fun m => (findContext 100 m t).map pyStrip) := by
  unfold find_matches at h
  rw [List.mem_filterMap] at h
  obtain ⟨kp, hkp, heq⟩ := h
  simp only [] at heq
  split at heq
  · exact absurd heq (by simp)
  · next hne =>
    refine ⟨kp.2, ?_, hne, ?_⟩
    · have h1 : kp.1 = key := by
        injection Option.some.inj heq with e1 e2
      rw [← h1]; exact hkp
    · injection Option.some.inj heq with e1 e2
      exact e2.symm

/-!
## Claim theorems
-/

/-- C3: for every text and every set of pattern rules, the mapping
returned by `find_matches` has no entry with an empty context list (rules
with zero occurrences are omitted entirely), and no entry has more than 5
contexts. -/
theorem C3_no_empty_entries {t : List Char} {ps : List (String × RE)}
    {key : String} {ctxs : List (List Char)}
    (h : (key, ctxs) ∈ find_matches t ps) :
    ctxs ≠ [] ∧ ctxs.length ≤ 5 := by
  obtain ⟨p, hkp, hne, hctxs⟩ := find_matches_mem h
  constructor
  · rw [hctxs]
    intro hnil
    obtain ⟨m0, hm0⟩ : ∃ m0, m0 ∈ (findall p t).take 5 := by
      cases hfa : findall p t with
      | nil => exact absurd hfa hne
      | cons x xs =>
        refine ⟨x, ?_⟩
        rw [List.take_succ_cons]
        exact List.mem_cons_self _ _
    have hmd : m0 ∈ ((findall p t).take 5).dedup := List.mem_dedup.2 hm0
    have hmf : m0 ∈ findall p t := List.take_subset _ _ hm0
    have hsome : ((findContext 100 m0 t).map pyStrip).isSome := by
      simpa using findContext_of_mem_findall hmf 100
    obtain ⟨c0, hc0⟩ := Option.isSome_iff_exists.1 hsome
    have hc0mem : c0 ∈ ((findall p t).take 5).dedup.filterMap
        (fun m => (findContext 100 m t).map pyStrip) :=
      List.mem_filterMap.2 ⟨m0, hmd, hc0⟩
    rw [hnil] at hc0mem
    exact absurd hc0mem (List.not_mem_nil c0)
  · rw [hctxs]
    calc (((findall p t).take 5).dedup.filterMap
          (fun m => (findContext 100 m t).map pyStrip)).length
        ≤ ((findall p t).take 5).dedup.length := List.length_filterMap_le _ _
      _ ≤ ((findall p t).take 5).length :=
          (List.dedup_sublist _).length_le
      _ ≤ 5 := List.length_take_le 5 _

/-- C2 (amended): the Matcher deduplicates the occurrences after
truncating to the first 5 (not before), so the number of contexts equals
the number of distinct literal matches among the first five occurrences;
it is therefore at most `min n 5` (with `n` the total number of distinct
literals) but can be smaller.  A phrase occurring twice verbatim still
yields exactly 1 context. -/
theorem C2_dedup_after_truncation {t : List Char} {ps : List (String × RE)}
    {key : String} {ctxs : List (List Char)}
    (h : (key, ctxs) ∈ find_matches t ps) :
    ∃ p, (key, p) ∈ ps ∧
      ctxs.length = ((findall p t).take 5).dedup.length ∧
      ctxs.length ≤ min ((findall p t).dedup.length) 5 := by
  obtain ⟨p, hkp, hne, hctxs⟩ := find_matches_mem h
  have hlen : ctxs.length = ((findall p t).take 5).dedup.length := by
    rw [hctxs]
    apply length_filterMap_of_isSome
    intro m hm
    have hmf : m ∈ findall p t :=
      List.take_subset _ _ (List.mem_dedup.1 hm)
    simpa using findContext_of_mem_findall hmf 100
  refine ⟨p, hkp, hlen, ?_⟩
  rw [hlen]
  refine le_min ?_ ?_
  · rw [← List.card_toFinset, ← List.card_toFinset]
    apply Finset.card_le_card
    intro x hx
    rw [List.mem_toFinset] at hx ⊢
    exact List.take_subset _ _ hx
  · calc ((findall p t).take 5).dedup.length
        ≤ ((findall p t).take 5).length := (List.dedup_sublist _).length_le
      _ ≤ 5 := List.length_take_le 5 _

/-- C2 (counterexample to the claim as stated): with the `warranty` rule
`warrant[yi]|guarantee` and a text whose first five occurrences are all
the same literal `warranty` while a sixth occurrence is the distinct
literal `warranti`, the rule has 2 distinct literal matches in the text
but yields 1 context, not `min 2 5 = 2` — the code truncates to 5
occurrences before deduplicating, not after. -/
theorem C2_counterexample :
    ((find_matches
        (String.toList
          "warranty warranty warranty warranty warranty warrantied")
        [("warranty", alts [cat [litS "warrant", RE.cls ['y', 'i']],
                            litS "guarantee"])]).map
      (fun kv => kv.2.length) = [1]) ∧
    ((findall
        (alts [cat [litS "warrant", RE.cls ['y', 'i']], litS "guarantee"])
        (String.toList
          "warranty warranty warranty warranty warranty warrantied")).dedup.length
      = 2) ∧
    (1 : Nat) ≠ min 2 5 := by
  refine ⟨by decide, by decide, by decide⟩

/-- C4: every context string returned by `find_matches` has length at most
200 (the two 100-character windows) plus the length of the matched
literal. -/
theorem C4_context_length_bound {t : List Char} {ps : List (String × RE)}
    {key : String} {ctxs : List (List Char)} {c : List Char}
    (h : (key, ctxs) ∈ find_matches t ps) (hc : c ∈ ctxs) :
    ∃ p m, (key, p) ∈ ps ∧ m ∈ findall p t ∧ c.length ≤ 200 + m.length := by
  obtain ⟨p, hkp, hne, hctxs⟩ := find_matches_mem h
  rw [hctxs] at hc
  obtain ⟨m, hmd, hcm⟩ := List.mem_filterMap.1 hc
  have hmf : m ∈ findall p t := List.take_subset _ _ (List.mem_dedup.1 hmd)
  obtain ⟨w0, hw0, hw0c⟩ := Option.map_eq_some'.1 hcm
  have hw0mem : w0 ∈ findall (winRE 100 m) t := by
    unfold findContext at hw0
    exact List.mem_of_mem_head? hw0
  obtain ⟨p0, j0, _, _, _, hacc⟩ := findall_mem_sound hw0mem
  obtain ⟨s1, s2, s3, hdecomp, hl1, _, hfor, hl3, _⟩ := acceptsWin hacc
  have hs2 : s2.length = m.length := (List.Forall₂.length_eq hfor).symm
  have hw0len : w0.length ≤ 200 + m.length := by
    rw [hdecomp]
    simp only [List.length_append]
    omega
  refine ⟨p, m, hkp, hmf, ?_⟩
  calc c.length = (pyStrip w0).length := by rw [hw0c]
    _ ≤ w0.length := pyStrip_length_le w0
    _ ≤ 200 + m.length := hw0len

/-- Membership in the raw deadline list of `extract_deadlines` (before
dedup and cap). -/
theorem extract_deadlines_mem {t d : List Char}
    (h : d ∈ extract_deadlines t) :
    ∃ pat ∈ date_patterns, ∃ date ∈ findall pat t,
      ∃ context ∈ findall (winRE 50 date) t,
        (vocabWords.any fun w => decide (w <:+: toLowerL context)) = true ∧
        d = pyStrip context := by
  unfold extract_deadlines at h
  simp only [] at h
  have h1 := List.mem_dedup.1 (List.take_subset _ _ h)
  rw [List.mem_flatMap] at h1
  obtain ⟨pat, hpat, h2⟩ := h1
  rw [List.mem_flatMap] at h2
  obtain ⟨date, hdate, h3⟩ := h2
  rw [List.mem_filterMap] at h3
  obtain ⟨context, hctx, h4⟩ := h3
  split at h4
  · next hvoc => exact ⟨pat, hpat, date, hdate, context, hctx, hvoc,
      (Option.some.inj h4).symm⟩
  · exact absurd h4 (by simp)

/-- C5: `extract_deadlines` returns at most 10 entries, with no duplicate
elements, and every entry contains one of the deadline-vocabulary words
`due`, `deadline`, `submit`, `close`, `by` as a case-insensitive
substring. -/
theorem C5_deadlines_shape (t : List Char) :
    (extract_deadlines t).length ≤ 10 ∧ (extract_deadlines t).Nodup ∧
    ∀ d ∈ extract_deadlines t, ∃ w ∈ vocabWords, w <:+: toLowerL d := by
  refine ⟨?_, ?_, ?_⟩
  · unfold extract_deadlines
    exact List.length_take_le 10 _
  · unfold extract_deadlines
    exact (List.take_sublist _ _).nodup (List.nodup_dedup _)
  · intro d hd
    obtain ⟨pat, hpat, date, hdate, context, hctx, hvoc, hdval⟩ :=
      extract_deadlines_mem hd
    rw [List.any_eq_true] at hvoc
    obtain ⟨w, hwmem, hwin⟩ := hvoc
    rw [decide_eq_true_eq] at hwin
    refine ⟨w, hwmem, ?_⟩
    rw [hdval, toLowerL_pyStrip]
    have hwmem' : w = String.toList "due" ∨ w = String.toList "deadline" ∨
        w = String.toList "submit" ∨ w = String.toList "close" ∨
        w = String.toList "by" := by
      simpa [vocabWords] using hwmem
    have hwne : w ≠ [] := by
      rcases hwmem' with rfl | rfl | rfl | rfl | rfl <;> decide
    refine infix_pyStrip hwne ?_ ?_ hwin
    · rcases hwmem' with rfl | rfl | rfl | rfl | rfl <;> rfl
    · rcases hwmem' with rfl | rfl | rfl | rfl | rfl <;> rfl

/-- C10: both the Matcher's 100-character context windows and the
DeadlineExtractor's 50-character windows are built from `.` repetitions,
which never match a newline: every returned context is the (stripped)
concatenation of a newline-free flank of at most the window size, a
case-insensitive copy of the matched literal, and another newline-free
flank — so a window never extends across a line break, and a match right
after a line break gets no preceding context. -/
theorem C10_windows_stop_at_newlines :
    (∀ (t : List Char) (ps : List (String × RE)) (key : String)
       (ctxs : List (List Char)) (c : List Char),
       (key, ctxs) ∈ find_matches t ps → c ∈ ctxs →
       ∃ p m w s1 s2 s3, (key, p) ∈ ps ∧ m ∈ findall p t ∧
         w = s1 ++ s2 ++ s3 ∧ c = pyStrip w ∧
         s1.length ≤ 100 ∧ ('\n' ∉ s1) ∧
         List.Forall₂ (fun a b => charIEq a b = true) m s2 ∧
         s3.length ≤ 100 ∧ ('\n' ∉ s3)) ∧
    (∀ (t d : List Char), d ∈ extract_deadlines t →
       ∃ pat date w s1 s2 s3, pat ∈ date_patterns ∧ date ∈ findall pat t ∧
         w = s1 ++ s2 ++ s3 ∧ d = pyStrip w ∧
         s1.length ≤ 50 ∧ ('\n' ∉ s1) ∧
         List.Forall₂ (fun a b => charIEq a b = true) date s2 ∧
         s3.length ≤ 50 ∧ ('\n' ∉ s3)) := by
  constructor
  · intro t ps key ctxs c h hc
    obtain ⟨p, hkp, hne, hctxs⟩ := find_matches_mem h
    rw [hctxs] at hc
    obtain ⟨m, hmd, hcm⟩ := List.mem_filterMap.1 hc
    have hmf : m ∈ findall p t := List.take_subset _ _ (List.mem_dedup.1 hmd)
    obtain ⟨w0, hw0, hw0c⟩ := Option.map_eq_some'.1 hcm
    have hw0mem : w0 ∈ findall (winRE 100 m) t := by
      unfold findContext at hw0
      exact List.mem_of_mem_head? hw0
    obtain ⟨p0, j0, _, _, _, hacc⟩ := findall_mem_sound hw0mem
    obtain ⟨s1, s2, s3, hdecomp, hl1, hn1, hfor, hl3, hn3⟩ := acceptsWin hacc
    exact ⟨p, m, w0, s1, s2, s3, hkp, hmf, hdecomp, hw0c.symm,
      hl1, hn1, hfor, hl3, hn3⟩
  · intro t d hd
    obtain ⟨pat, hpat, date, hdate, context, hctx, hvoc, hdval⟩ :=
      extract_deadlines_mem hd
    obtain ⟨p0, j0, _, _, _, hacc⟩ := findall_mem_sound hctx
    obtain ⟨s1, s2, s3, hdecomp, hl1, hn1, hfor, hl3, hn3⟩ := acceptsWin hacc
    exact ⟨pat, date, context, s1, s2, s3, hpat, hdate, hdecomp, hdval,
      hl1, hn1, hfor, hl3, hn3⟩

/-- C2 witness: the `indemnification` rule on a text with the phrase
"indemnification clause" twice verbatim yields exactly 1 context. -/
theorem C2_witness :
    (("indemnification",
        [String.toList "indemnification clause and indemnification clause"]) ∈
      find_matches
        (String.toList "indemnification clause and indemnification clause")
        [("indemnification",
          alts [litS "indemnif", cat [litS "hold", wsP, litS "harmless"]])]) ∧
    ∃ p, ("indemnification", p) ∈
        [("indemnification",
          alts [litS "indemnif", cat [litS "hold", wsP, litS "harmless"]])] ∧
      (1 : Nat) = ((findall p (String.toList
          "indemnification clause and indemnification clause")).take 5).dedup.length ∧
      (1 : Nat) ≤ min ((findall p (String.toList
          "indemnification clause and indemnification clause")).dedup.length) 5 :=
  have hmem : ("indemnification",
      [String.toList "indemnification clause and indemnification clause"]) ∈
      find_matches
        (String.toList "indemnification clause and indemnification clause")
        [("indemnification",
          alts [litS "indemnif", cat [litS "hold", wsP, litS "harmless"]])] := by
    decide
  ⟨hmem, C2_dedup_after_truncation hmem⟩

/-- C3 witness: a concrete rule hit with one context. -/
theorem C3_witness :
    (("format", [String.toList "margin notes"]) ∈
      find_matches (String.toList "margin notes") INSTRUCTION_PATTERNS) ∧
    ([String.toList "margin notes"] ≠ [] ∧
      ([String.toList "margin notes"] : List (List Char)).length ≤ 5) :=
  have hmem : ("format", [String.toList "margin notes"]) ∈
      find_matches (String.toList "margin notes") INSTRUCTION_PATTERNS := by
    decide
  ⟨hmem, C3_no_empty_entries hmem⟩

/-- C4 witness: the context bound at a concrete input. -/
theorem C4_witness :
    ∃ p m, ("format", p) ∈ INSTRUCTION_PATTERNS ∧
      m ∈ findall p (String.toList "margin notes") ∧
      (String.toList "margin notes").length ≤ 200 + m.length :=
  have hmem : ("format", [String.toList "margin notes"]) ∈
      find_matches (String.toList "margin notes") INSTRUCTION_PATTERNS := by
    decide
  C4_context_length_bound hmem (by decide)

/-- C5 witness: the deadline-extractor invariants at a concrete input. -/
theorem C5_witness :
    (extract_deadlines (String.toList "due by 3/15/25")).length ≤ 10 ∧
    (extract_deadlines (String.toList "due by 3/15/25")).Nodup ∧
    ∀ d ∈ extract_deadlines (String.toList "due by 3/15/25"),
      ∃ w ∈ vocabWords, w <:+: toLowerL d :=
  C5_deadlines_shape (String.toList "due by 3/15/25")

/-- C10 witness: window decompositions at concrete inputs, for both the
Matcher and the DeadlineExtractor. -/
theorem C10_witness :
    (∃ p m w s1 s2 s3, ("format", p) ∈ INSTRUCTION_PATTERNS ∧
       m ∈ findall p (String.toList "margin notes") ∧
       w = s1 ++ s2 ++ s3 ∧ String.toList "margin notes" = pyStrip w ∧
       s1.length ≤ 100 ∧ ('\n' ∉ s1) ∧
       List.Forall₂ (fun a b => charIEq a b = true) m s2 ∧
       s3.length ≤ 100 ∧ ('\n' ∉ s3)) ∧
    (∃ pat date w s1 s2 s3, pat ∈ date_patterns ∧
       date ∈ findall pat (String.toList "due by 3/15/25") ∧
       w = s1 ++ s2 ++ s3 ∧ String.toList "due by 3/15/25" = pyStrip w ∧
       s1.length ≤ 50 ∧ ('\n' ∉ s1) ∧
       List.Forall₂ (fun a b => charIEq a b = true) date s2 ∧
       s3.length ≤ 50 ∧ ('\n' ∉ s3)) :=
  have hmem : ("format", [String.toList "margin notes"]) ∈
      find_matches (String.toList "margin notes") INSTRUCTION_PATTERNS := by
    decide
  ⟨C10_windows_stop_at_newlines.1 _ _ _ _ _ hmem (by decide),
   C10_windows_stop_at_newlines.2 _ _ (by decide)⟩

theorem find_matches_nil {t : List Char} {ps : List (String × RE)}
    (h : ∀ kv ∈ ps, findall kv.2 t = []) : find_matches t ps = [] := by
  unfold find_matches
  rw [List.filterMap_eq_nil_iff]
  intro kp hkp
  simp only []
  rw [if_pos (h kp hkp)]

theorem extract_deadlines_ws {t : List Char}
    (h : ∀ pat ∈ date_patterns, findall pat t = []) :
    extract_deadlines t = [] := by
  unfold extract_deadlines
  have hflat : (date_patterns.flatMap fun pat =>
      (findall pat t).flatMap fun date =>
        (findall (winRE 50 date) t).filterMap fun context =>
          if vocabWords.any (fun w => decide (w <:+: toLowerL context)) then
            some (pyStrip context)
          else none) = [] := by
    rw [List.flatMap_eq_nil_iff]
    intro pat hpat
    rw [h pat hpat]
    rfl
  rw [hflat]
  rfl

/-- C1 (amended): on an empty or whitespace-only text, `analyze_document`
returns all-empty mappings, no deadlines, and zero word, risk and
instruction counts; the estimated page count is `newlineCount / 50`
(integer division), which is zero only when the text has fewer than 50
newline characters. -/
theorem C1_whitespace_analysis (t : List Char)
    (hws : ∀ c ∈ t, isPySpace c = true) :
    analyze_document t [] =
      { instructions := [], risks_high := [], risks_medium := [],
        risks_low := [], federal_items := [], custom_searches := [],
        deadlines := [],
        statistics :=
          { total_pages := (t.countP fun c => c = '\n') / 50,
            word_count := 0, risk_count := 0, instruction_count := 0 } } := by
  have hreq_i : ∀ kv ∈ INSTRUCTION_PATTERNS, reqNonWS kv.2 = true := by decide
  have hreq_h : ∀ kv ∈ RISK_high, reqNonWS kv.2 = true := by decide
  have hreq_m : ∀ kv ∈ RISK_medium, reqNonWS kv.2 = true := by decide
  have hreq_l : ∀ kv ∈ RISK_low, reqNonWS kv.2 = true := by decide
  have hreq_f : ∀ kv ∈ FEDERAL_PATTERNS, reqNonWS kv.2 = true := by decide
  have hreq_d : ∀ pat ∈ date_patterns, reqNonWS pat = true := by decide
  have hfi : find_matches t INSTRUCTION_PATTERNS = [] :=
    find_matches_nil fun kv hkv => findall_nil_of_ws hws (hreq_i kv hkv)
  have hfh : find_matches t RISK_high = [] :=
    find_matches_nil fun kv hkv => findall_nil_of_ws hws (hreq_h kv hkv)
  have hfm : find_matches t RISK_medium = [] :=
    find_matches_nil fun kv hkv => findall_nil_of_ws hws (hreq_m kv hkv)
  have hfl : find_matches t RISK_low = [] :=
    find_matches_nil fun kv hkv => findall_nil_of_ws hws (hreq_l kv hkv)
  have hff : find_matches t FEDERAL_PATTERNS = [] :=
    find_matches_nil fun kv hkv => findall_nil_of_ws hws (hreq_f kv hkv)
  have hdl : extract_deadlines t = [] :=
    extract_deadlines_ws fun pat hpat => findall_nil_of_ws hws (hreq_d pat hpat)
  unfold analyze_document
  simp only [hfi, hfh, hfm, hfl, hff, hdl, if_pos rfl]
  congr 1
  simp [pySplit_ws hws]

/-- C1 witness: a small whitespace-only text. -/
theorem C1_witness :
    (∀ c ∈ String.toList " \n\t", isPySpace c = true) ∧
    analyze_document (String.toList " \n\t") [] =
      { instructions := [], risks_high := [], risks_medium := [],
        risks_low := [], federal_items := [], custom_searches := [],
        deadlines := [],
        statistics :=
          { total_pages :=
              ((String.toList " \n\t").countP fun c => c = '\n') / 50,
            word_count := 0, risk_count := 0, instruction_count := 0 } } :=
  have hws : ∀ c ∈ String.toList " \n\t", isPySpace c = true := by decide
  ⟨hws, C1_whitespace_analysis (String.toList " \n\t") hws⟩

/-- C1 counterexample to the claim as stated: a whitespace-only text made
of 50 newline characters has estimated page count `50 / 50 = 1`, not 0 —
the statistics are not all zero for newline-only texts of arbitrary
length. -/
theorem C1_counterexample :
    (∀ c ∈ List.replicate 50 '\n', isPySpace c = true) ∧
    (analyze_document (List.replicate 50 '\n') []).statistics.total_pages
      = 1 := by
  constructor
  · decide
  · decide

theorem forall₂_charIEq_toLower {n x : List Char}
    (h : List.Forall₂ (fun c d => charIEq c d = true) n x) :
    toLowerL n = toLowerL x := by
  induction h with
  | nil => rfl
  | cons hcd htail ih =>
    simp only [toLowerL, List.map_cons] at ih ⊢
    rw [ih]
    simp only [charIEq, decide_eq_true_eq] at hcd
    rw [hcd]

theorem forall₂_charIEq_of_toLower : ∀ {n x : List Char},
    toLowerL n = toLowerL x →
    List.Forall₂ (fun c d => charIEq c d = true) n x := by
  intro n
  induction n with
  | nil =>
    intro x h
    cases x with
    | nil => exact List.Forall₂.nil
    | cons d x' => exact absurd h (by simp [toLowerL])
  | cons c n' ih =>
    intro x h
    cases x with
    | nil => exact absurd h (by simp [toLowerL])
    | cons d x' =>
      simp only [toLowerL, List.map_cons, List.cons.injEq] at h
      exact List.Forall₂.cons (by simp [charIEq, h.1]) (ih h.2)

theorem pySlice_within (t : List Char) (i j : Nat) : pySlice t i j <:+: t :=
  ((List.take_prefix _ _).isInfix).trans ((List.drop_suffix i t).isInfix)

theorem pySlice_of_append (a b c : List Char) :
    pySlice (a ++ b ++ c) a.length (a.length + b.length) = b := by
  unfold pySlice
  rw [List.append_assoc, List.drop_left,
    show a.length + b.length - a.length = b.length by omega, List.take_left]

/-- The supplied term occurs in the text, compared case-insensitively
(the matching condition of an escaped custom search term under
`re.IGNORECASE`). -/
def occursIEq (needle hay : List Char) : Prop :=
  toLowerL needle <:+: toLowerL hay

instance (n h : List Char) : Decidable (occursIEq n h) :=
  List.decidableInfix _ _

/-- `findall` on an escaped literal finds something exactly when the
literal occurs case-insensitively. -/
theorem findall_lits_iff (n t : List Char) :
    findall (lits n) t ≠ [] ↔ occursIEq n t := by
  constructor
  · intro hne
    cases hfa : findall (lits n) t with
    | nil => exact absurd hfa hne
    | cons x xs =>
      have hx : x ∈ findall (lits n) t := by
        rw [hfa]; exact List.mem_cons_self _ _
      obtain ⟨p, j, _, _, heq, hacc⟩ := findall_mem_sound hx
      have hlow : toLowerL n = toLowerL x :=
        forall₂_charIEq_toLower (acceptsLits n x hacc)
      rw [occursIEq, hlow, heq]
      exact List.IsInfix.map pyLower (pySlice_within t p j)
  · intro hocc
    rw [occursIEq] at hocc
    obtain ⟨u, v, huv⟩ := hocc
    have huv' : List.map pyLower t = (u ++ toLowerL n) ++ v := by
      rw [show List.map pyLower t = toLowerL t from rfl, ← huv]
    obtain ⟨t1, t2, ht12, hm1, hm2⟩ := List.map_eq_append_iff.1 huv'
    obtain ⟨a, b, hab, hma, hmb⟩ := List.map_eq_append_iff.1 hm1
    have hblen : b.length = n.length := by
      have h1 : (List.map pyLower b).length = (toLowerL n).length := by rw [hmb]
      simpa [toLowerL] using h1
    have htdecomp : t = a ++ b ++ t2 := by rw [ht12, hab]
    have hlen : a.length + n.length ≤ t.length := by
      rw [htdecomp]
      simp only [List.length_append]
      omega
    refine findall_lits_complete hlen ?_
    apply forall₂_charIEq_of_toLower
    have hsl : pySlice t a.length (a.length + n.length) = b := by
      rw [htdecomp, ← hblen]
      exact pySlice_of_append a b t2
    rw [hsl]
    show List.map pyLower n = List.map pyLower b
    rw [hmb]
    rfl

theorem mem_dedupFirstAux : ∀ (l seen : List String) (x : String),
    x ∈ dedupFirstAux l seen ↔ (x ∈ l ∧ x ∉ seen) := by
  intro l
  induction l with
  | nil => intro seen x; simp [dedupFirstAux]
  | cons y ys ih =>
    intro seen x
    simp only [dedupFirstAux]
    split
    · next hy =>
      rw [ih]
      constructor
      · rintro ⟨h1, h2⟩; exact ⟨List.mem_cons_of_mem _ h1, h2⟩
      · rintro ⟨h1, h2⟩
        rcases List.mem_cons.1 h1 with rfl | h1
        · exact absurd hy h2
        · exact ⟨h1, h2⟩
    · next hy =>
      rw [List.mem_cons, ih]
      constructor
      · rintro (rfl | ⟨h1, h2⟩)
        · exact ⟨List.mem_cons_self _ _, hy⟩
        · exact ⟨List.mem_cons_of_mem _ h1,
            fun hx => h2 (List.mem_cons_of_mem _ hx)⟩
      · rintro ⟨h1, h2⟩
        by_cases hxy : x = y
        · exact Or.inl hxy
        · rcases List.mem_cons.1 h1 with rfl | h1
          · exact absurd rfl hxy
          · refine Or.inr ⟨h1, ?_⟩
            intro hx
            rcases List.mem_cons.1 hx with rfl | hx
            · exact hxy rfl
            · exact h2 hx

theorem mem_dedupFirst (l : List String) (x : String) :
    x ∈ dedupFirst l ↔ x ∈ l := by
  unfold dedupFirst
  rw [mem_dedupFirstAux]
  simp

/-- A key is present in the `find_matches` mapping exactly when one of its
rules has at least one occurrence. -/
theorem find_matches_key_iff {t : List Char} {ps : List (String × RE)}
    {key : String} :
    (∃ ctxs, (key, ctxs) ∈ find_matches t ps) ↔
    (∃ p, (key, p) ∈ ps ∧ findall p t ≠ []) := by
  constructor
  · rintro ⟨ctxs, h⟩
    obtain ⟨p, hkp, hne, _⟩ := find_matches_mem h
    exact ⟨p, hkp, hne⟩
  · rintro ⟨p, hkp, hne⟩
    refine ⟨((findall p t).take 5).dedup.filterMap
      (fun m => (findContext 100 m t).map pyStrip), ?_⟩
    unfold find_matches
    apply List.mem_filterMap.2
    refine ⟨(key, p), hkp, ?_⟩
    simp only []
    rw [if_neg hne]

/-- C6: `analyze_document` is a total function of its inputs — custom
terms are modelled with `lits` (the compiled form of `re.escape(term)`),
which is a literal pattern for every term, including terms full of regex
metacharacters, so no pattern-compilation failure is possible by
construction — and the `custom_searches` mapping has an entry for exactly
those supplied terms that occur case-insensitively in the text; in
particular 3 terms of which 2 occur yield exactly 2 keys. -/
theorem C6_custom_terms_exact :
    (∀ (t : List Char) (terms : List String) (term : String),
       (∃ ctxs, (term, ctxs) ∈ (analyze_document t terms).custom_searches) ↔
       (term ∈ terms ∧ occursIEq term.toList t)) ∧
    ((analyze_document (String.toList "alpha beta")
        ["alpha", "beta", "gamma"]).custom_searches.map Prod.fst
      = ["alpha", "beta"]) := by
  constructor
  · intro t terms term
    unfold analyze_document
    simp only []
    by_cases hte : terms = []
    · subst hte
      rw [if_pos rfl]
      simp
    · rw [if_neg hte]
      rw [find_matches_key_iff]
      constructor
      · rintro ⟨p, hp, hne⟩
        rw [List.mem_map] at hp
        obtain ⟨term', ht', heq⟩ := hp
        injection heq with e1 e2
        subst e1
        subst e2
        exact ⟨(mem_dedupFirst terms term').1 ht',
          (findall_lits_iff _ _).1 hne⟩
      · rintro ⟨hmem, hocc⟩
        refine ⟨lits term.toList, ?_, (findall_lits_iff _ _).2 hocc⟩
        exact List.mem_map.2 ⟨term, (mem_dedupFirst terms term).2 hmem, rfl⟩
  · decide

theorem pySlice_decomp_middle {t x y z : List Char} {i j : Nat}
    (hij : i ≤ j) (hjlen : j ≤ t.length)
    (heq : pySlice t i j = x ++ y ++ z) :
    y = pySlice t (i + x.length) (i + x.length + y.length) := by
  have hlen : j - i = x.length + y.length + z.length := by
    have h1 := pySlice_length (t := t) (j := j) i hjlen
    rw [heq] at h1
    simp only [List.length_append] at h1
    omega
  have e1 : pySlice t i j =
      pySlice t i (i + x.length) ++ pySlice t (i + x.length) j :=
    pySlice_append (by omega) (by omega)
  have e2 : pySlice t (i + x.length) j =
      pySlice t (i + x.length) (i + x.length + y.length) ++
        pySlice t (i + x.length + y.length) j :=
    pySlice_append (by omega) (by omega)
  rw [e2] at e1
  rw [heq, List.append_assoc] at e1
  have hxlen : x.length = (pySlice t i (i + x.length)).length := by
    rw [pySlice_length i (by omega)]; omega
  obtain ⟨ex, eyz⟩ := List.append_inj e1.symm hxlen.symm
  have hylen : y.length =
      (pySlice t (i + x.length) (i + x.length + y.length)).length := by
    rw [pySlice_length _ (by omega)]; omega
  exact ((List.append_inj eyz hylen.symm).1).symm

theorem find_matches_cons (t : List Char) (kp : String × RE)
    (ps : List (String × RE)) :
    find_matches t (kp :: ps) =
      if findall kp.2 t = [] then find_matches t ps
      else (kp.1, ((findall kp.2 t).take 5).dedup.filterMap
          (fun m => (findContext 100 m t).map pyStrip)) :: find_matches t ps := by
  unfold find_matches
  rw [List.filterMap_cons]
  by_cases h : findall kp.2 t = []
  · rw [if_pos h]
    rw [if_pos h]
  · rw [if_neg h]
    rw [if_neg h]

/-- The literal occurs, case-insensitively, at position `p` of the text. -/
def occAt (needle hay : List Char) (p : Nat) : Prop :=
  p + needle.length ≤ hay.length ∧
  toLowerL (pySlice hay p (p + needle.length)) = toLowerL needle

instance (n h : List Char) (p : Nat) : Decidable (occAt n h p) := by
  unfold occAt; infer_instance

/-- The risk-high phrase of the category round-trip scenario. -/
def ulPhrase : List Char := String.toList "unlimited liability"

/-- C7: on a text whose only pattern-relevant content is a single verbatim
occurrence of the risk-high phrase "unlimited liability" (the
`unlimited_liability` rule finds exactly that literal, no other risk rule
of any level finds anything, and the phrase occurs at a unique position),
`analyze_document` reports `risks['high']['unlimited_liability']` with
exactly one context, that context contains the phrase, and
`statistics.risk_count = 1`. -/
theorem C7_risk_high_roundtrip (t : List Char)
    (hfound : findall unlimitedRE t = [ulPhrase])
    (hothers : ∀ kv ∈ RISK_high, kv.1 ≠ "unlimited_liability" →
      findall kv.2 t = [])
    (hmed : ∀ kv ∈ RISK_medium, findall kv.2 t = [])
    (hlow : ∀ kv ∈ RISK_low, findall kv.2 t = [])
    (huniq : ∀ p1, p1 < t.length → ∀ p2, p2 < t.length →
      occAt ulPhrase t p1 → occAt ulPhrase t p2 → p1 = p2) :
    ∃ c, (analyze_document t []).risks_high = [("unlimited_liability", [c])] ∧
      ulPhrase <:+: c ∧
      (analyze_document t []).statistics.risk_count = 1 := by
  have hind : findall indemnRE t = [] :=
    hothers ("indemnification", indemnRE) (by simp [RISK_high]) (by decide)
  have hip : findall ipTransferRE t = [] :=
    hothers ("ip_transfer", ipTransferRE) (by simp [RISK_high]) (by decide)
  have hliq : findall liqDamagesRE t = [] :=
    hothers ("liquidated_damages", liqDamagesRE) (by simp [RISK_high])
      (by decide)
  have hterm : findall termConvRE t = [] :=
    hothers ("termination_for_convenience", termConvRE) (by simp [RISK_high])
      (by decide)
  have hpay : findall payTermsRE t = [] :=
    hothers ("payment_terms", payTermsRE) (by simp [RISK_high]) (by decide)
  have hmemf : ulPhrase ∈ findall unlimitedRE t := by
    rw [hfound]; exact List.mem_cons_self _ _
  obtain ⟨w0, hw0⟩ :=
    Option.isSome_iff_exists.1 (findContext_of_mem_findall hmemf 100)
  have hfm : find_matches t RISK_high =
      [("unlimited_liability", [pyStrip w0])] := by
    unfold RISK_high
    rw [find_matches_cons, find_matches_cons, find_matches_cons,
      find_matches_cons, find_matches_cons, find_matches_cons]
    rw [hfound, hind, hip, hliq, hterm, hpay]
    simp [find_matches, hw0]
  have hfmm : find_matches t RISK_medium = [] := find_matches_nil hmed
  have hfml : find_matches t RISK_low = [] := find_matches_nil hlow
  have hrh : (analyze_document t []).risks_high =
      [("unlimited_liability", [pyStrip w0])] := by
    unfold analyze_document
    simp only []
    exact hfm
  have hrc : (analyze_document t []).statistics.risk_count = 1 := by
    unfold analyze_document
    simp only []
    rw [hfm, hfmm, hfml]
    rfl
  have hw0mem : w0 ∈ findall (winRE 100 ulPhrase) t := by
    unfold findContext at hw0
    exact List.mem_of_mem_head? (Option.mem_def.2 hw0)
  obtain ⟨pw, jw, hpwjw, hjwlen, heqw, haccw⟩ := findall_mem_sound hw0mem
  obtain ⟨s1, s2, s3, hdecomp, hl1, hn1, hfor, hl3, hn3⟩ := acceptsWin haccw
  have hs2len : s2.length = ulPhrase.length := (hfor.length_eq).symm
  have hs2pos : s2 = pySlice t (pw + s1.length) (pw + s1.length + s2.length) :=
    pySlice_decomp_middle hpwjw hjwlen (heqw.symm.trans hdecomp)
  have hwlen : w0.length = jw - pw := by
    rw [heqw]; exact pySlice_length pw hjwlen
  have hwparts : s1.length + s2.length + s3.length = jw - pw := by
    rw [← hwlen, hdecomp]; simp [List.length_append]; omega
  obtain ⟨pi, ji, hpiji, hjilen, heqi, hacci⟩ := findall_mem_sound hmemf
  have hilen : ulPhrase.length = ji - pi := by
    rw [heqi]; exact pySlice_length pi hjilen
  have hplen : 0 < ulPhrase.length := by decide
  have hocc2 : occAt ulPhrase t (pw + s1.length) := by
    constructor
    · omega
    · rw [show pw + s1.length + ulPhrase.length = pw + s1.length + s2.length
        by omega]
      rw [← hs2pos]
      exact (forall₂_charIEq_toLower hfor).symm
  have hocc1 : occAt ulPhrase t pi := by
    constructor
    · omega
    · rw [show pi + ulPhrase.length = ji by omega, ← heqi]
  have heqpos : pw + s1.length = pi :=
    huniq _ (by omega) _ (by omega) hocc2 hocc1
  have hs2 : s2 = ulPhrase := by
    rw [hs2pos, heqpos, hs2len, show pi + ulPhrase.length = ji by omega]
    exact heqi.symm
  have hinfix : ulPhrase <:+: pyStrip w0 := by
    refine infix_pyStrip (by decide) (by rfl) (by rfl) ?_
    exact ⟨s1, s3, by rw [← hs2, ← hdecomp]⟩
  exact ⟨pyStrip w0, hrh, hinfix, hrc⟩

/-- C7 witness: the scenario on the text "unlimited liability" itself. -/
theorem C7_witness :
    ∃ c, (analyze_document ulPhrase []).risks_high
        = [("unlimited_liability", [c])] ∧
      ulPhrase <:+: c ∧
      (analyze_document ulPhrase []).statistics.risk_count = 1 :=
  C7_risk_high_roundtrip ulPhrase (by decide) (by decide) (by decide)
    (by decide) (by decide)

/-- C8: a report never contains an empty table — the Summary sheet always
has exactly the 5 statistics rows in fixed order, and every other sheet is
omitted entirely (no header-only sheet) when its category has no
findings. -/
theorem C8_no_empty_tables (r : AnalysisResult) :
    (∀ tbl ∈ create_excel_report r, tbl.rows ≠ []) ∧
    (∃ tbl, (create_excel_report r).head? = some tbl ∧ tbl.name = "Summary" ∧
      tbl.rows = [["Total Word Count", toString r.statistics.word_count],
                  ["Estimated Pages", toString r.statistics.total_pages],
                  ["Total Risks Identified", toString r.statistics.risk_count],
                  ["Total Instructions Found",
                    toString r.statistics.instruction_count],
                  ["Deadlines Found", toString r.deadlines.length]]) := by
  constructor
  · intro tbl htbl
    unfold create_excel_report at htbl
    rcases List.mem_append.1 htbl with h | h
    rotate_left
    · split at h
      · exact absurd h (List.not_mem_nil tbl)
      · split at h
        · exact absurd h (List.not_mem_nil tbl)
        · next hne =>
          obtain rfl := List.mem_singleton.1 h
          exact hne
    rcases List.mem_append.1 h with h | h
    rotate_left
    · split at h
      · exact absurd h (List.not_mem_nil tbl)
      · split at h
        · exact absurd h (List.not_mem_nil tbl)
        · next hne =>
          obtain rfl := List.mem_singleton.1 h
          exact hne
    rcases List.mem_append.1 h with h | h
    rotate_left
    · split at h
      · exact absurd h (List.not_mem_nil tbl)
      · next hne =>
        obtain rfl := List.mem_singleton.1 h
        show ¬(r.deadlines.map fun d => [String.mk d]) = []
        intro hmap
        exact hne (List.map_eq_nil_iff.1 hmap)
    rcases List.mem_append.1 h with h | h
    rotate_left
    · split at h
      · exact absurd h (List.not_mem_nil tbl)
      · next hne =>
        obtain rfl := List.mem_singleton.1 h
        exact hne
    rcases List.mem_append.1 h with h | h
    · obtain rfl := List.mem_singleton.1 h
      simp [mkTable]
    · split at h
      · exact absurd h (List.not_mem_nil tbl)
      · next hne =>
        obtain rfl := List.mem_singleton.1 h
        exact hne
  · refine ⟨mkTable "Summary" ["Metric", "Value"]
      [["Total Word Count", toString r.statistics.word_count],
       ["Estimated Pages", toString r.statistics.total_pages],
       ["Total Risks Identified", toString r.statistics.risk_count],
       ["Total Instructions Found", toString r.statistics.instruction_count],
       ["Deadlines Found", toString r.deadlines.length]], ?_, rfl, rfl⟩
    unfold create_excel_report
    rfl

/-- C9: report construction is a pure function of the `AnalysisResult`
value — in this embedding `create_excel_report` reads nothing but its
argument, so invoking it twice on the same result yields structurally
identical reports (the same tables, in the same order, with the same rows
and cells). -/
theorem C9_report_deterministic (r : AnalysisResult) :
    create_excel_report r = create_excel_report r := rfl

/-- C8 witness: the report invariants at a concrete empty analysis
result. -/
theorem C8_witness :
    (∀ tbl ∈ create_excel_report
        { instructions := [], risks_high := [], risks_medium := [],
          risks_low := [], federal_items := [], custom_searches := [],
          deadlines := [],
          statistics := { total_pages := 0, word_count := 0, risk_count := 0,
                          instruction_count := 0 } }, tbl.rows ≠ []) ∧
    (∃ tbl, (create_excel_report
        { instructions := [], risks_high := [], risks_medium := [],
          risks_low := [], federal_items := [], custom_searches := [],
          deadlines := [],
          statistics := { total_pages := 0, word_count := 0, risk_count := 0,
                          instruction_count := 0 } }).head? = some tbl ∧
      tbl.name = "Summary" ∧
      tbl.rows = [["Total Word Count", toString (0 : Nat)],
                  ["Estimated Pages", toString (0 : Nat)],
                  ["Total Risks Identified", toString (0 : Nat)],
                  ["Total Instructions Found", toString (0 : Nat)],
                  ["Deadlines Found", toString ([] : List (List Char)).length]]) :=
  C8_no_empty_tables _
